import Mathlib

/-!
Verification of the Trello-Archiver journey/flow/layout engine.

This file gives a shallow embedding of the Python code in
`trello-ui/components/chord.py`, `trello-ui/components/state_diagram.py`,
`trello-ui/utils/data_processing.py` and
`trello-ui/database/queries.py` (function `get_card_flow_data`), and proves
properties of that embedding.

Modelling conventions:
* Python `str` is modelled as `List Char` (`Str`); Python string methods
  (`split`, comparison) are re-implemented structurally below.
* Python `int` is `ℤ`; SQL counts and flow values are `ℤ`.
* Python float arithmetic on derived quantities (node sizes, hues, widths)
  is modelled in `ℚ`; trigonometric node positions are modelled in `ℝ`.
* A Python `set`'s unspecified iteration order is modelled by an explicit
  enumeration parameter constrained to be a permutation of the set's
  elements (`validEnum`).
* Python functions that may return `None` or swallow exceptions are
  modelled with `Option`.
-/

namespace TrelloArchiver

/-- Python strings are modelled as lists of characters. -/
abbrev Str := List Char

/-- Lexicographic comparison of Python strings by code point
(the `<`/`<=` used by Python's `sorted` on `str`). -/
def lexLe : Str → Str → Bool
  | [], _ => true
  | _ :: _, [] => false
  | a :: as, b :: bs => if a = b then lexLe as bs else decide (a < b)

/-- Strict lexicographic comparison of Python strings. -/
def lexLt : Str → Str → Bool
  | [], [] => false
  | [], _ :: _ => true
  | _ :: _, [] => false
  | a :: as, b :: bs => if a = b then lexLt as bs else decide (a < b)

/-- Python `s.split(sep)` for a single-character separator: splits on every
occurrence, keeping empty fields, and yields `[""]` on the empty string. -/
def splitOnChar (sep : Char) : Str → List Str
  | [] => [[]]
  | c :: rest =>
    let r := splitOnChar sep rest
    if c = sep then [] :: r
    else
      match r with
      | [] => [[c]]
      | h :: t => (c :: h) :: t

/-- Whitespace stripped by Python's `int(...)` conversion. -/
def isPyWs (c : Char) : Bool :=
  c = ' ' || c = '\t' || c = '\n' || c = '\r' || c = '\x0b' || c = '\x0c'

/-- Strip leading and trailing whitespace. -/
def trimWs (s : Str) : Str :=
  ((s.dropWhile isPyWs).reverse.dropWhile isPyWs).reverse

/-- Value of a nonempty all-digit string, `none` otherwise. -/
def digitsVal? (cs : Str) : Option ℕ :=
  if cs ≠ [] ∧ cs.all Char.isDigit then
    some (cs.foldl (fun a c => a * 10 + (c.toNat - 48)) 0)
  else none

/-- Python `int(s)`: optional surrounding whitespace, optional sign, digits;
raises (here: `none`) otherwise.  (Exotic forms such as underscore
separators are not modelled; no claim depends on them.) -/
def intOfStr? (s : Str) : Option ℤ :=
  match trimWs s with
  | '+' :: rest => (digitsVal? rest).map Int.ofNat
  | '-' :: rest => (digitsVal? rest).map (fun n => -(n : ℤ))
  | rest => (digitsVal? rest).map Int.ofNat

/-- A parsed timestamp, mirroring the fields of a Python `datetime`
restricted to what the code constructs (`datetime(year, month, day, hour,
minute)`). -/
structure DateTime where
  year : ℤ
  month : ℤ
  day : ℤ
  hour : ℤ
  minute : ℤ
deriving DecidableEq, Repr

/-- Gregorian leap-year test used by Python's `datetime`. -/
def isLeap (y : ℤ) : Bool :=
  y % 4 = 0 && (y % 100 ≠ 0 || y % 400 = 0)

/-- Days in a month of the proleptic Gregorian calendar. -/
def daysInMonth (y m : ℤ) : ℤ :=
  if m = 2 then (if isLeap y then 29 else 28)
  else if m = 4 ∨ m = 6 ∨ m = 9 ∨ m = 11 then 30
  else 31

/-- `datetime(year, month, day, hour, minute)`: `some` a value iff all
fields are in the ranges Python's constructor accepts, `none` where Python
raises `ValueError`. -/
def mkDatetime (y mo d h mi : ℤ) : Option DateTime :=
  if 1 ≤ y ∧ y ≤ 9999 ∧ 1 ≤ mo ∧ mo ≤ 12 ∧ 1 ≤ d ∧ d ≤ daysInMonth y mo
      ∧ 0 ≤ h ∧ h ≤ 23 ∧ 0 ≤ mi ∧ mi ≤ 59 then
    some ⟨y, mo, d, h, mi⟩
  else none

/-- `parse_timestamp` from `state_diagram.py` (lines 207-224): parses the
`"MM:DD:YY HH:MM"` encoding, interpreting the two-digit year as `2000 + YY`;
any structural mismatch, non-numeric field or out-of-range calendar field
makes the bare `except:` return `None` (here `none`).  Total by
construction: it never fails to return. -/
def parse_timestamp (time_str : Str) : Option DateTime :=
  if time_str = [] then none
  else
    let parts := splitOnChar ' ' time_str
    let date_parts := splitOnChar ':' (parts.headD [])
    let time_parts :=
      if parts.length > 1 then splitOnChar ':' ((parts[1]?).getD [])
      else [['0', '0'], ['0', '0']]
    do
      let mS ← date_parts[0]?
      let dS ← date_parts[1]?
      let yS ← date_parts[2]?
      let hS ← time_parts[0]?
      let minS ← time_parts[1]?
      let month ← intOfStr? mS
      let day ← intOfStr? dS
      let yy ← intOfStr? yS
      let hour ← intOfStr? hS
      let minute ← intOfStr? minS
      mkDatetime (2000 + yy) month day hour minute

/-- Python `datetime` comparison: lexicographic on
(year, month, day, hour, minute). -/
def dtLe (a b : DateTime) : Bool :=
  if a.year = b.year then
    if a.month = b.month then
      if a.day = b.day then
        if a.hour = b.hour then decide (a.minute ≤ b.minute)
        else decide (a.hour < b.hour)
      else decide (a.day < b.day)
    else decide (a.month < b.month)
  else decide (a.year < b.year)

/-- Strict version of `dtLe`. -/
def dtLt (a b : DateTime) : Bool :=
  dtLe a b && !(dtLe b a)

theorem dtLe_total (a b : DateTime) : dtLe a b = true ∨ dtLe b a = true := by
  simp only [dtLe]
  split_ifs <;> simp <;> omega

theorem dtLe_trans {a b c : DateTime} (h₁ : dtLe a b = true)
    (h₂ : dtLe b c = true) : dtLe a c = true := by
  simp only [dtLe] at *
  split_ifs at * <;> simp_all <;> omega

theorem dtLe_antisymm {a b : DateTime} (h₁ : dtLe a b = true)
    (h₂ : dtLe b a = true) : a = b := by
  obtain ⟨y, mo, d, h, mi⟩ := a
  obtain ⟨y', mo', d', h', mi'⟩ := b
  simp only [dtLe] at *
  split_ifs at * <;> simp_all <;> omega

theorem dtLe_refl (a : DateTime) : dtLe a a = true := by
  simp [dtLe]

/-- `move_time + timedelta(hours=1)` for the synthetic open tail interval,
with calendar carry.  (Python would raise `OverflowError` past year 9999;
that edge is outside every claim and here simply carries on.) -/
def addHour (t : DateTime) : DateTime :=
  if t.hour + 1 ≤ 23 then { t with hour := t.hour + 1 }
  else if t.day + 1 ≤ daysInMonth t.year t.month then
    { t with hour := 0, day := t.day + 1 }
  else if t.month + 1 ≤ 12 then
    { t with hour := 0, day := 1, month := t.month + 1 }
  else
    { t with hour := 0, day := 1, month := 1, year := t.year + 1 }

/-! ## Flow data and the chord-diagram layout (`chord.py`) -/

/-- One row of flow data as consumed by the diagram code: a dict with
`source`, `target` and `value` keys. -/
structure FlowItem where
  source : Str
  target : Str
  value : ℤ
deriving DecidableEq, Repr

/-- The `node_flow` dict of `create_chord_diagram` (chord.py lines 43-50):
each item adds its value to its source's entry and to its target's entry,
so a self-loop contributes twice.  The result equals
Σ(outgoing weight) + Σ(incoming weight). -/
def nodeFlow (fd : List FlowItem) (x : Str) : ℤ :=
  fd.foldl
    (fun acc it =>
      acc + (if it.source = x then it.value else 0)
          + (if it.target = x then it.value else 0))
    0

/-- The elements of Python's `set(sources + targets)`, in one particular
order; any permutation of this list is a possible iteration order. -/
def nodeSet (fd : List FlowItem) : List Str :=
  (fd.map (·.source) ++ fd.map (·.target)).dedup

/-- `enum` is a possible iteration order of `set(sources + targets)`. -/
def validEnum (enum : List Str) (fd : List FlowItem) : Prop :=
  enum.Perm (nodeSet fd)

/-- `sorted(all_nodes_set, key=lambda x: node_flow.get(x, 0), reverse=True)`
(chord.py line 53).  Python's `sorted` is stable, so it is modelled by a
stable sort (insertion sort) over the given iteration order of the set. -/
def sortNodesChord (enum : List Str) (fd : List FlowItem) : List Str :=
  List.insertionSort (fun a b => nodeFlow fd b ≤ nodeFlow fd a) enum

/-- Adjacency-matrix entry (chord.py lines 58-62): the matrix cell is
assigned (not accumulated) for every item with that (source, target) pair,
so the last matching item in iteration order wins; `0` when no item
matches. -/
def matVal (fd : List FlowItem) (s t : Str) : ℤ :=
  (((fd.filter (fun it => it.source = s ∧ it.target = t)).getLast?).map
    (·.value)).getD 0

/-- `max(values)` (chord.py line 94) over a nonempty flow list; the code
only reaches it when `flow_data` is nonempty. -/
def maxValue (fd : List FlowItem) : ℤ :=
  ((fd.map (·.value)).maximum).unbot' 1

/-- Raw node sizes (chord.py line 112):
`sum(matrix[i]) + sum(matrix[:, i])` over the ordered node list. -/
def nodeSizesRaw (nodes : List Str) (fd : List FlowItem) : List ℤ :=
  nodes.map (fun x =>
    (nodes.map (fun t => matVal fd x t)).sum
      + (nodes.map (fun s => matVal fd s x)).sum)

/-- `max(node_sizes) if node_sizes else 1` (chord.py line 113). -/
def maxSize (sizes : List ℤ) : ℤ :=
  (sizes.maximum).unbot' 1

/-- Normalized node sizes (chord.py line 114):
`30 + (size / max_size) * 40`. -/
def normalizedSizes (sizes : List ℤ) : List ℚ :=
  sizes.map (fun s => 30 + ((s : ℚ) / (maxSize sizes : ℚ)) * 40)

/-- Hues assigned by `generate_chord_colors` (chord.py lines 170-171):
`hue = i / n_colors` for the node at sorted index `i`. -/
def hues (n : ℕ) : List ℚ :=
  (List.range n).map (fun i => (i : ℚ) / (n : ℚ))

/-- Chord line widths (chord.py line 95):
`max(1, (matrix[i][j] / max_value) * 10)` for each ordered node pair. -/
def chordWidths (nodes : List Str) (fd : List FlowItem) : List (List ℚ) :=
  nodes.map (fun s =>
    nodes.map (fun t =>
      max 1 (((matVal fd s t : ℚ) / (maxValue fd : ℚ)) * 10)))

/-- Everything `create_chord_diagram` derives from the flow data before
positioning: the ordered node list and the sizes, hues, matrix and widths
computed from it.  Node positions and curve geometry are functions of
`nodes` alone (`chordNodePos`, `chordCurve` below), so equality of two
`ChordLayout`s transfers to all drawn geometry. -/
structure ChordLayout where
  nodes : List Str
  sizes : List ℚ
  nodeHues : List ℚ
  matrix : List (List ℤ)
  widths : List (List ℚ)
deriving DecidableEq, Repr

/-- The full (pre-trigonometry) output of `create_chord_diagram` for a given
iteration order `enum` of the node set. -/
def chordLayout (enum : List Str) (fd : List FlowItem) : ChordLayout :=
  let nodes := sortNodesChord enum fd
  { nodes := nodes
    sizes := normalizedSizes (nodeSizesRaw nodes fd)
    nodeHues := hues nodes.length
    matrix := nodes.map (fun s => nodes.map (fun t => matVal fd s t))
    widths := chordWidths nodes fd }

/-- Node angle (chord.py line 71): `np.linspace(0, 2π, n, endpoint=False)`
places node `k` of `n` at angle `2πk/n`. -/
noncomputable def nodeTheta (n k : ℕ) : ℝ :=
  2 * Real.pi * k / n

/-- Chord-diagram node position on the unit circle (chord.py lines 72-73). -/
noncomputable def chordNodePos (n k : ℕ) : ℝ × ℝ :=
  (Real.cos (nodeTheta n k), Real.sin (nodeTheta n k))

/-- The quadratic Bézier chord between nodes `i` and `j` (chord.py lines
81-91): control point at `0.3 ×` the midpoint, curve sampled over
`t ∈ [0, 1]`. -/
noncomputable def chordCurve (n i j : ℕ) (t : ℝ) : ℝ × ℝ :=
  let p := chordNodePos n i
  let q := chordNodePos n j
  let cx := (p.1 + q.1) / 2 * (3 / 10)
  let cy := (p.2 + q.2) / 2 * (3 / 10)
  ((1 - t) ^ 2 * p.1 + 2 * (1 - t) * t * cx + t ^ 2 * q.1,
   (1 - t) ^ 2 * p.2 + 2 * (1 - t) * t * cy + t ^ 2 * q.2)

/-! ## The state-diagram layout (`state_diagram.py`, `create_state_diagram`) -/

/-- `sorted(list(set(sources + targets)))` (state_diagram.py line 41): plain
ascending lexical sort, independent of total flow.  Because all elements
are distinct and the order is total, the result does not depend on the
set's iteration order (`stateNodes_enum_irrelevant` below). -/
def stateNodes (fd : List FlowItem) : List Str :=
  List.insertionSort (fun a b => lexLe a b = true) (nodeSet fd)

/-- State-diagram node position (state_diagram.py lines 54-56): radius 2. -/
noncomputable def stateNodePos (n k : ℕ) : ℝ × ℝ :=
  (2 * Real.cos (nodeTheta n k), 2 * Real.sin (nodeTheta n k))

open scoped Classical

/-- The straight edge segment drawn by `create_state_diagram` (lines
70-91): endpoints are pulled in by `offset = 0.25` along the edge
direction, dividing by `dist = √(dx² + dy²)`.  When source and target
coincide (a self-loop) `dist = 0` and the source's `0.0/0.0` produces NaN
coordinates; that degenerate outcome is modelled as `none`. -/
noncomputable def stateEdgeSegment (n i j : ℕ) : Option ((ℝ × ℝ) × (ℝ × ℝ)) :=
  let p := stateNodePos n i
  let q := stateNodePos n j
  let dx := q.1 - p.1
  let dy := q.2 - p.2
  let dist := Real.sqrt (dx ^ 2 + dy ^ 2)
  if dist = 0 then none
  else
    some ((p.1 + dx / dist * (1 / 4), p.2 + dy / dist * (1 / 4)),
          (q.1 - dx / dist * (1 / 4), q.2 - dy / dist * (1 / 4)))

/-! ## Journey reconstruction (`create_journey_state_diagram`) -/

/-- One row of a card's movement history (`path_data`): `from_list`,
`to_list` and the raw `time` string.  A missing/`None` time is modelled as
the empty string, which `parse_timestamp` likewise rejects. -/
structure MoveEvent where
  from_list : Str
  to_list : Str
  time : Str
deriving DecidableEq, Repr

/-- The order `df.sort_values('parsed_time')` establishes between two rows:
rows with valid timestamps are compared as datetimes, and rows whose
timestamp fails to parse (NaT) sort after every valid row.  Rows that are
tied (equal timestamps, or both invalid) may appear in either order. -/
def evOrd (a b : MoveEvent) : Bool :=
  match parse_timestamp a.time, parse_timestamp b.time with
  | some ta, some tb => dtLe ta tb
  | some _, none => true
  | none, some _ => false
  | none, none => true

/-- What the `df.sort_values('parsed_time')` call guarantees about the
sorted dataframe: it is a permutation of the input rows, ordered by
`evOrd`.  The default sort kind (`quicksort`) guarantees nothing more; in
particular it does not promise stability. -/
def IsSortImpl (f : List MoveEvent → List MoveEvent) : Prop :=
  ∀ l : List MoveEvent,
    (f l).Perm l ∧ (f l).Pairwise (fun a b => evOrd a b = true)

/-- One possible behaviour of the sort call: a stable sort. -/
def stableSortModel (l : List MoveEvent) : List MoveEvent :=
  List.insertionSort (fun a b => evOrd a b = true) l

/-- Another possible behaviour of the sort call: a sort whose ties come out
in reversed insertion order. -/
def tieReversingSortModel (l : List MoveEvent) : List MoveEvent :=
  List.insertionSort (fun a b => evOrd a b = true) l.reverse

/-- A dwell interval of the reconstructed journey (`timeline_data` entry,
state_diagram.py lines 258-264). -/
structure DwellInterval where
  list : Str
  start : DateTime
  stop : DateTime
  step : ℕ
  is_current : Bool
deriving DecidableEq, Repr

/-- The row loop of `create_journey_state_diagram` (state_diagram.py lines
238-264), applied to the already-sorted rows: rows with invalid timestamps
are skipped; every other row `i` yields an interval in `to_list` starting
at its parsed time and ending at the parsed time of row `i+1` (falling
back to its own time when row `i+1` does not parse); the final row gets a
one-hour synthetic interval marked current. -/
def buildTimeline : List MoveEvent → ℕ → List DwellInterval
  | [], _ => []
  | [e], i =>
    match parse_timestamp e.time with
    | none => []
    | some t =>
      [{ list := e.to_list, start := t, stop := addHour t, step := i,
         is_current := true }]
  | e :: e' :: rest, i =>
    match parse_timestamp e.time with
    | none => buildTimeline (e' :: rest) (i + 1)
    | some t =>
      let stop :=
        match parse_timestamp e'.time with
        | some t' => t'
        | none => t
      { list := e.to_list, start := t, stop := stop, step := i,
        is_current := false } :: buildTimeline (e' :: rest) (i + 1)

/-! ## Flow aggregation (`queries.py`, `get_card_flow_data`) -/

/-- One row of the `path_taken` table; `time` is `none` for SQL NULL. -/
structure PathRow where
  card_id : Str
  from_list : Str
  to_list : Str
  time : Option Str
deriving DecidableEq, Repr

/-- SQLite `substr(s, i, n)` (1-indexed). -/
def sqliteSubstr (s : Str) (i n : ℕ) : Str :=
  (s.drop (i - 1)).take n

/-- The date string the query derives from the raw time
(`'20' || substr(time,7,2) || '-' || substr(time,1,2) || '-' ||
substr(time,4,2)`), i.e. `"20YY-MM-DD"`; NULL propagates. -/
def derivedDate (t : Option Str) : Option Str :=
  t.map (fun s =>
    '2' :: '0' :: sqliteSubstr s 7 2 ++ '-' :: sqliteSubstr s 1 2
      ++ '-' :: sqliteSubstr s 4 2)

/-- The query's WHERE clause for an optional inclusive date window: a
comparison against NULL is not true, so rows with NULL time drop out
whenever a bound is supplied. -/
def passFilter (row : PathRow) (startD endD : Option Str) : Bool :=
  (match startD with
   | none => true
   | some sd =>
     match derivedDate row.time with
     | none => false
     | some d => lexLe sd d) &&
  (match endD with
   | none => true
   | some ed =>
     match derivedDate row.time with
     | none => false
     | some d => lexLe d ed)

/-- Number of qualifying move events for one `(from_list, to_list)` pair:
`COUNT(*)` counts rows (events), never distinct cards. -/
def flowWeight (rows : List PathRow) (startD endD : Option Str)
    (f t : Str) : ℕ :=
  ((rows.filter (fun r => passFilter r startD endD)).filter
    (fun r => r.from_list = f ∧ r.to_list = t)).length

/-- `get_card_flow_data` (queries.py lines 391-425): filter by the optional
window, group by `(from_list, to_list)`, emit one edge per group with
`COUNT(*)` as its value, ordered by value descending.  SQL leaves the
order of equal-valued groups unspecified; the theorems below only use
order-independent facts about the result. -/
def get_card_flow_data (rows : List PathRow) (startD endD : Option Str) :
    List FlowItem :=
  let filtered := rows.filter (fun r => passFilter r startD endD)
  let pairs := (filtered.map (fun r => (r.from_list, r.to_list))).dedup
  List.insertionSort (fun a b => b.value ≤ a.value)
    (pairs.map (fun p =>
      { source := p.1, target := p.2,
        value := (flowWeight rows startD endD p.1 p.2 : ℤ) }))

/-! ## HSV → RGB conversion (`hsv_to_rgb`, identical in chord.py and
state_diagram.py) -/

/-- Python `int(x)` for the nonnegative arguments `hsv_to_rgb` feeds it:
truncation toward zero. -/
def ratTrunc (x : ℚ) : ℤ :=
  if 0 ≤ x then ⌊x⌋ else -⌊-x⌋

/-- `hsv_to_rgb(h, s, v)` (chord.py lines 178-211): returns `None`
(modelled `none`) only if no `if i == _` branch fires, which the theorems
show cannot happen for `h ∈ [0, 1]`. -/
def hsv_to_rgb (h s v : ℚ) : Option (ℚ × ℚ × ℚ) :=
  if s = 0 then some (v, v, v)
  else
    let i₀ : ℤ := ratTrunc (h * 6)
    let f : ℚ := h * 6 - (i₀ : ℚ)
    let p : ℚ := v * (1 - s)
    let q : ℚ := v * (1 - s * f)
    let t : ℚ := v * (1 - s * (1 - f))
    let i : ℤ := i₀ % 6
    if i = 0 then some (v, t, p)
    else if i = 1 then some (q, v, p)
    else if i = 2 then some (p, v, t)
    else if i = 3 then some (p, q, v)
    else if i = 4 then some (t, p, v)
    else if i = 5 then some (v, p, q)
    else none

/-! ## Concrete inputs used by the claim theorems -/

/-- The spec's worked example: edges `[{A,B,10},{B,C,5},{A,A,2}]`. -/
def fdExample : List FlowItem :=
  [⟨['A'], ['B'], 10⟩, ⟨['B'], ['C'], 5⟩, ⟨['A'], ['A'], 2⟩]

/-- A permutation of `fdExample`. -/
def fdExamplePerm : List FlowItem :=
  [⟨['B'], ['C'], 5⟩, ⟨['A'], ['A'], 2⟩, ⟨['A'], ['B'], 10⟩]

/-- A two-node input whose nodes tie on total flow. -/
def fdTie : List FlowItem := [⟨['A'], ['B'], 1⟩]

/-- An input whose lexical node order disagrees with flow-descending
order. -/
def fdState : List FlowItem := [⟨['A'], ['B'], 10⟩, ⟨['B'], ['C'], 5⟩]

/-- Three journey events whose calendar order differs from the lexical
order of their raw timestamps. -/
def evJan15 : MoveEvent := ⟨['X'], ['P'], "01:15:24 09:00".toList⟩

/-- See `evJan15`. -/
def evFeb01 : MoveEvent := ⟨['P'], ['Q'], "02:01:24 08:00".toList⟩

/-- See `evJan15`. -/
def evJan20of23 : MoveEvent := ⟨['Q'], ['R'], "01:20:23 23:59".toList⟩

/-- An event whose timestamp does not parse. -/
def evBad : MoveEvent := ⟨['Z'], ['W'], "garbage".toList⟩

/-- A single self-loop edge. -/
def fdLoop : List FlowItem := [⟨['A'], ['A'], 1⟩]

/-- Two events with identical valid timestamps (a tie). -/
def evTieA : MoveEvent := ⟨['X'], ['P'], "01:15:24 09:00".toList⟩

/-- See `evTieA`. -/
def evTieB : MoveEvent := ⟨['Y'], ['Q'], "01:15:24 09:00".toList⟩

/-- Path rows: the same card makes the same transition twice. -/
def rowAB1 : PathRow := ⟨['c'], ['A'], ['B'], some "01:15:24 09:00".toList⟩

/-- See `rowAB1`. -/
def rowAB2 : PathRow := ⟨['c'], ['A'], ['B'], some "01:16:24 10:00".toList⟩

/-! ## Helper lemmas -/

/-- Two sorted permutations of each other agree, given antisymmetry of the
order on the elements actually present. -/
theorem sortedPermEq {α : Type} {r : α → α → Prop} :
    ∀ {l₁ l₂ : List α},
      (∀ a ∈ l₁, ∀ b ∈ l₁, r a b → r b a → a = b) →
      l₁.Perm l₂ → l₁.Pairwise r → l₂.Pairwise r → l₁ = l₂
  | [], l₂, _, hp, _, _ => (hp.symm.eq_nil).symm
  | a :: t₁, l₂, anti, hp, h₁, h₂ => by
    cases l₂ with
    | nil => exact absurd hp.eq_nil (by simp)
    | cons b t₂ =>
      have hmem_a : a ∈ b :: t₂ := hp.mem_iff.mp (List.mem_cons_self a t₁)
      have hmem_b : b ∈ a :: t₁ := hp.mem_iff.mpr (List.mem_cons_self b t₂)
      have hab : a = b := by
        rcases List.mem_cons.mp hmem_a with h | h
        · exact h
        rcases List.mem_cons.mp hmem_b with h' | h'
        · exact h'.symm
        · have hr₁ : r a b := (List.pairwise_cons.mp h₁).1 b h'
          have hr₂ : r b a := (List.pairwise_cons.mp h₂).1 a h
          exact anti a (List.mem_cons_self a t₁) b hmem_b hr₁ hr₂
      subst hab
      have hp' : t₁.Perm t₂ := hp.cons_inv
      have anti' : ∀ x ∈ t₁, ∀ y ∈ t₁, r x y → r y x → x = y := fun x hx y hy =>
        anti x (List.mem_cons_of_mem a hx) y (List.mem_cons_of_mem a hy)
      have := sortedPermEq anti' hp' (List.pairwise_cons.mp h₁).2
        (List.pairwise_cons.mp h₂).2
      rw [this]

/-- A permutation of a list with at most one element is that list. -/
theorem permShortEq {α : Type} {l₁ l₂ : List α} (hp : l₁.Perm l₂)
    (hl : l₁.length ≤ 1) : l₁ = l₂ := by
  cases l₁ with
  | nil => exact (hp.symm.eq_nil).symm
  | cons a t =>
    cases t with
    | nil =>
      have := hp.length_eq
      cases l₂ with
      | nil => simp at this
      | cons b t₂ =>
        cases t₂ with
        | nil =>
          have : a = b := by
            have := hp.mem_iff.mp (List.mem_cons_self a [])
            simpa using this
          rw [this]
        | cons c t₃ => simp at this
    | cons b t' => simp at hl

/-- `nodeFlow` is a sum of per-item contributions. -/
theorem nodeFlow_eq_sum (fd : List FlowItem) (x : Str) :
    nodeFlow fd x =
      (fd.map (fun it =>
        (if it.source = x then it.value else 0)
          + (if it.target = x then it.value else 0))).sum := by
  suffices h : ∀ (c : ℤ),
      fd.foldl
        (fun acc it =>
          acc + (if it.source = x then it.value else 0)
              + (if it.target = x then it.value else 0)) c
        = c + (fd.map (fun it =>
            (if it.source = x then it.value else 0)
              + (if it.target = x then it.value else 0))).sum by
    simpa [nodeFlow] using h 0
  induction fd with
  | nil => intro c; simp
  | cons it rest ih => intro c; simp [ih]; ring

/-- `nodeFlow` only depends on the multiset of flow items. -/
theorem nodeFlow_perm {fd fd' : List FlowItem} (hp : fd.Perm fd') (x : Str) :
    nodeFlow fd x = nodeFlow fd' x := by
  rw [nodeFlow_eq_sum, nodeFlow_eq_sum]
  exact (hp.map _).sum_eq

/-- `List.maximum` only depends on the multiset. -/
theorem maximum_perm {l₁ l₂ : List ℤ} (hp : l₁.Perm l₂) :
    l₁.maximum = l₂.maximum := by
  induction hp with
  | nil => rfl
  | cons x _ ih => rw [List.maximum_cons, List.maximum_cons, ih]
  | swap x y l =>
    simp only [List.maximum_cons]
    rw [sup_left_comm]
  | trans _ _ ih₁ ih₂ => rw [ih₁, ih₂]

/-- The `(source, target)` pairs of the flow data are pairwise distinct
(the shape `get_card_flow_data`'s GROUP BY guarantees). -/
def UniquePairs (fd : List FlowItem) : Prop :=
  (fd.map (fun it => (it.source, it.target))).Nodup

/-- With unique pairs, at most one item matches a given pair. -/
theorem filter_pair_short {fd : List FlowItem} (h : UniquePairs fd)
    (s t : Str) :
    (fd.filter (fun it => it.source = s ∧ it.target = t)).length ≤ 1 := by
  induction fd with
  | nil => simp
  | cons it rest ih =>
    have h' : UniquePairs rest := (List.nodup_cons.mp h).2
    by_cases hm : it.source = s ∧ it.target = t
    · have hrest : rest.filter (fun it => it.source = s ∧ it.target = t) = [] := by
        rw [List.filter_eq_nil_iff]
        intro a ha
        simp only [decide_eq_true_eq, not_and]
        intro h1 h2
        have hmem : (a.source, a.target)
            ∈ rest.map (fun it => (it.source, it.target)) :=
          List.mem_map_of_mem _ ha
        have heq : (a.source, a.target) = (it.source, it.target) := by
          rw [h1, h2, hm.1, hm.2]
        rw [heq] at hmem
        exact absurd hmem (List.nodup_cons.mp h).1
      rw [List.filter_cons_of_pos (by simp [hm]), hrest]
      simp
    · simpa [List.filter_cons, hm] using ih h'

/-- With unique pairs, the adjacency-matrix entry only depends on the
multiset of flow items. -/
theorem matVal_perm {fd fd' : List FlowItem} (h : UniquePairs fd)
    (hp : fd.Perm fd') (s t : Str) : matVal fd s t = matVal fd' s t := by
  have hfilter :
      fd.filter (fun it => it.source = s ∧ it.target = t)
        = fd'.filter (fun it => it.source = s ∧ it.target = t) :=
    permShortEq (hp.filter _) (filter_pair_short h s t)
  rw [matVal, matVal, hfilter]

/-- `lexLe` is total. -/
theorem lexLe_total : ∀ a b : Str, lexLe a b = true ∨ lexLe b a = true
  | [], _ => Or.inl rfl
  | _ :: _, [] => Or.inr rfl
  | a :: as, b :: bs => by
    by_cases hab : a = b
    · subst hab
      simpa [lexLe] using lexLe_total as bs
    · rcases lt_or_gt_of_ne hab with h | h
      · left; simp [lexLe, hab, h]
      · right
        have : ¬ b = a := fun hba => hab hba.symm
        simp [lexLe, this, h]

/-- `lexLe` is transitive. -/
theorem lexLe_trans : ∀ {a b c : Str},
    lexLe a b = true → lexLe b c = true → lexLe a c = true
  | [], _, _, _, _ => rfl
  | _ :: _, [], _, h, _ => by simp [lexLe] at h
  | _ :: _, _ :: _, [], _, h => by simp [lexLe] at h
  | a :: as, b :: bs, c :: cs, h₁, h₂ => by
    by_cases hab : a = b <;> by_cases hbc : b = c
    · subst hab; subst hbc
      simp only [lexLe, if_pos rfl] at h₁ h₂ ⊢
      exact lexLe_trans h₁ h₂
    · subst hab
      simpa [lexLe, hbc] using h₂
    · subst hbc
      simpa [lexLe, hab] using h₁
    · simp only [lexLe, if_neg hab, decide_eq_true_eq] at h₁
      simp only [lexLe, if_neg hbc, decide_eq_true_eq] at h₂
      have hac : a < c := lt_trans h₁ h₂
      simp [lexLe, ne_of_lt hac, hac]

/-- `lexLe` is antisymmetric. -/
theorem lexLe_antisymm : ∀ {a b : Str},
    lexLe a b = true → lexLe b a = true → a = b
  | [], [], _, _ => rfl
  | [], _ :: _, _, h => by simp [lexLe] at h
  | _ :: _, [], h, _ => by simp [lexLe] at h
  | a :: as, b :: bs, h₁, h₂ => by
    by_cases hab : a = b
    · subst hab
      simp only [lexLe, if_pos rfl] at h₁ h₂
      rw [lexLe_antisymm h₁ h₂]
    · have hba : ¬ b = a := fun h => hab h.symm
      simp only [lexLe, if_neg hab, decide_eq_true_eq] at h₁
      simp only [lexLe, if_neg hba, decide_eq_true_eq] at h₂
      exact absurd h₁ (not_lt_of_gt h₂)

/-- `evOrd` is total. -/
theorem evOrd_total (a b : MoveEvent) : evOrd a b = true ∨ evOrd b a = true := by
  unfold evOrd
  cases hpa : parse_timestamp a.time <;> cases hpb : parse_timestamp b.time <;>
    simp
  exact dtLe_total _ _

/-- `evOrd` is transitive. -/
theorem evOrd_trans {a b c : MoveEvent} (h₁ : evOrd a b = true)
    (h₂ : evOrd b c = true) : evOrd a c = true := by
  unfold evOrd at *
  cases hpa : parse_timestamp a.time <;> cases hpb : parse_timestamp b.time <;>
    cases hpc : parse_timestamp c.time <;>
      simp_all
  exact dtLe_trans h₁ h₂

/-- A strict comparison follows from a non-strict one plus distinctness. -/
theorem dtLt_of_dtLe_ne {a b : DateTime} (h : dtLe a b = true) (hne : a ≠ b) :
    dtLt a b = true := by
  have : dtLe b a = false := by
    by_contra hba
    exact hne (dtLe_antisymm h (by revert hba; cases dtLe b a <;> simp))
  simp [dtLt, h, this]

/-- The stable sort satisfies the sort call's contract. -/
theorem stableSortModel_isSortImpl : IsSortImpl stableSortModel := by
  intro l
  refine ⟨List.perm_insertionSort _ l, ?_⟩
  exact @List.sorted_insertionSort _ (fun a b => evOrd a b = true) _
    ⟨evOrd_total⟩ ⟨fun _ _ _ => evOrd_trans⟩ l

/-- The tie-reversing sort also satisfies the sort call's contract. -/
theorem tieReversingSortModel_isSortImpl : IsSortImpl tieReversingSortModel := by
  intro l
  refine ⟨(List.perm_insertionSort _ l.reverse).trans l.reverse_perm, ?_⟩
  exact @List.sorted_insertionSort _ (fun a b => evOrd a b = true) _
    ⟨evOrd_total⟩ ⟨fun _ _ _ => evOrd_trans⟩ l.reverse

/-- The timeline has one interval per event with a parsable timestamp. -/
theorem buildTimeline_length : ∀ (l : List MoveEvent) (i : ℕ),
    (buildTimeline l i).length
      = l.countP (fun e => (parse_timestamp e.time).isSome)
  | [], _ => by simp [buildTimeline]
  | [e], i => by
    cases h : parse_timestamp e.time <;>
      simp [buildTimeline, h, List.countP_cons]
  | e :: e' :: rest, i => by
    cases h : parse_timestamp e.time <;>
      simp [buildTimeline, h, List.countP_cons,
        buildTimeline_length (e' :: rest) (i + 1)]

/-- The interval start times are exactly the parsable timestamps, in
order. -/
theorem buildTimeline_starts : ∀ (l : List MoveEvent) (i : ℕ),
    (buildTimeline l i).map (·.start)
      = l.filterMap (fun e => parse_timestamp e.time)
  | [], _ => by simp [buildTimeline]
  | [e], i => by
    cases h : parse_timestamp e.time <;> simp [buildTimeline, h]
  | e :: e' :: rest, i => by
    cases h : parse_timestamp e.time <;>
      simp [buildTimeline, h, buildTimeline_starts (e' :: rest) (i + 1)]

/-- The first interval of a nonempty valid-headed timeline starts at the
head event's parsed time. -/
theorem buildTimeline_head_start (e : MoveEvent) (rest : List MoveEvent)
    (i : ℕ) {t : DateTime} (h : parse_timestamp e.time = some t) :
    ((buildTimeline (e :: rest) i).head?).map (·.start) = some t := by
  cases rest <;> simp [buildTimeline, h]

/-- When every event parses, consecutive intervals chain:
each interval's `stop` is the next interval's `start`. -/
theorem buildTimeline_chain : ∀ (l : List MoveEvent) (i : ℕ),
    (∀ e ∈ l, (parse_timestamp e.time).isSome = true) →
    (buildTimeline l i).Chain' (fun a b => a.stop = b.start)
  | [], _, _ => by simp [buildTimeline]
  | [e], i, h => by
    cases hp : parse_timestamp e.time
    · simp only [buildTimeline, hp]
      exact List.chain'_nil
    · simp only [buildTimeline, hp]
      exact List.chain'_singleton _
  | e :: e' :: rest, i, h => by
    have he : (parse_timestamp e.time).isSome = true := h e (by simp)
    have he' : (parse_timestamp e'.time).isSome = true := h e' (by simp)
    obtain ⟨t, hp⟩ := Option.isSome_iff_exists.mp he
    obtain ⟨t', hp'⟩ := Option.isSome_iff_exists.mp he'
    have ih := buildTimeline_chain (e' :: rest) (i + 1)
      (fun x hx => h x (List.mem_cons_of_mem e hx))
    rw [buildTimeline, hp]
    simp only [hp']
    rw [List.chain'_cons']
    refine ⟨?_, ih⟩
    intro y hy
    have := buildTimeline_head_start e' rest (i + 1) hp'
    cases hh : (buildTimeline (e' :: rest) (i + 1)).head? with
    | none => rw [hh] at hy; simp at hy
    | some z =>
      rw [hh] at this hy
      have hz : z.start = t' := by simpa using this
      have hyz : y = z := by
        have := hy
        simp only [Option.mem_def] at this
        exact Option.some_inj.mp this.symm
      subst hyz
      simp [hz]

/-- When every event parses, the timeline decomposes as a prefix of closed
intervals followed by one synthetic open tail of exactly one hour. -/
theorem buildTimeline_flags : ∀ (l : List MoveEvent) (i : ℕ),
    (∀ e ∈ l, (parse_timestamp e.time).isSome = true) → l ≠ [] →
    ∃ pre lastI, buildTimeline l i = pre ++ [lastI]
      ∧ lastI.is_current = true ∧ lastI.stop = addHour lastI.start
      ∧ ∀ I ∈ pre, I.is_current = false
  | [], _, _, hne => absurd rfl hne
  | [e], i, h, _ => by
    obtain ⟨t, hp⟩ := Option.isSome_iff_exists.mp (h e (by simp))
    exact ⟨[], ⟨e.to_list, t, addHour t, i, true⟩,
      by simp [buildTimeline, hp], rfl, rfl, by simp⟩
  | e :: e' :: rest, i, h, _ => by
    obtain ⟨t, hp⟩ := Option.isSome_iff_exists.mp (h e (by simp))
    obtain ⟨t', hp'⟩ := Option.isSome_iff_exists.mp (h e' (by simp))
    obtain ⟨pre, lastI, heq, hcur, hstop, hpre⟩ :=
      buildTimeline_flags (e' :: rest) (i + 1)
        (fun x hx => h x (List.mem_cons_of_mem e hx)) (by simp)
    refine ⟨{ list := e.to_list, start := t, stop := t', step := i,
              is_current := false } :: pre, lastI, ?_, hcur, hstop, ?_⟩
    · rw [buildTimeline, hp]
      simp [hp', heq]
    · intro I hI
      rcases List.mem_cons.mp hI with h' | h'
      · rw [h']
      · exact hpre I h'

/-- Sorted events with pairwise-distinct parsed timestamps give strictly
increasing parsed timestamps. -/
theorem filterMap_parse_strict {l : List MoveEvent}
    (hsorted : l.Pairwise (fun a b => evOrd a b = true))
    (hdist : (l.filterMap (fun e => parse_timestamp e.time)).Pairwise (· ≠ ·)) :
    (l.filterMap (fun e => parse_timestamp e.time)).Pairwise
      (fun a b => dtLt a b = true) := by
  rw [List.pairwise_filterMap] at hdist ⊢
  have hboth := hsorted.and hdist
  refine hboth.imp ?_
  rintro a b ⟨hord, hne⟩ x hx y hy
  have hle : dtLe x y = true := by
    unfold evOrd at hord
    rw [Option.mem_def] at hx hy
    rw [hx, hy] at hord
    exact hord
  exact dtLt_of_dtLe_ne hle (hne x hx y hy)

/-- All nodes have pairwise distinct total flow (no ties). -/
def DistinctFlows (fd : List FlowItem) : Prop :=
  (nodeSet fd).Pairwise (fun a b => nodeFlow fd a ≠ nodeFlow fd b)

/-- The chord node order is sorted descending by total flow. -/
theorem sortNodesChord_sorted (enum : List Str) (fd : List FlowItem) :
    (sortNodesChord enum fd).Pairwise
      (fun a b => nodeFlow fd b ≤ nodeFlow fd a) :=
  @List.sorted_insertionSort _ (fun a b => nodeFlow fd b ≤ nodeFlow fd a) _
    ⟨fun a b => le_total (nodeFlow fd b) (nodeFlow fd a)⟩
    ⟨fun _ _ _ h₁ h₂ => le_trans h₂ h₁⟩ enum

/-- The chord node order is a permutation of the iteration order. -/
theorem sortNodesChord_perm (enum : List Str) (fd : List FlowItem) :
    (sortNodesChord enum fd).Perm enum :=
  List.perm_insertionSort _ enum

/-- The node sets of permuted flow lists are permutations of each other. -/
theorem nodeSet_perm {fd fd' : List FlowItem} (hp : fd.Perm fd') :
    (nodeSet fd).Perm (nodeSet fd') := by
  unfold nodeSet
  exact ((hp.map (fun it => it.source)).append
    (hp.map (fun it => it.target))).dedup

/-- With no ties, the chord node order does not depend on the set's
iteration order nor on the order of the flow items. -/
theorem sortNodesChord_unique {fd fd' : List FlowItem} (hp : fd.Perm fd')
    (hd : DistinctFlows fd) {enum enum' : List Str}
    (h1 : validEnum enum fd) (h2 : validEnum enum' fd') :
    sortNodesChord enum fd = sortNodesChord enum' fd' := by
  have hflow : ∀ x, nodeFlow fd x = nodeFlow fd' x := nodeFlow_perm hp
  have hee : enum.Perm enum' := h1.trans ((nodeSet_perm hp).trans h2.symm)
  have hperm : (sortNodesChord enum fd).Perm (sortNodesChord enum' fd') :=
    (sortNodesChord_perm enum fd).trans
      (hee.trans (sortNodesChord_perm enum' fd').symm)
  have hs₂ : (sortNodesChord enum' fd').Pairwise
      (fun a b => nodeFlow fd b ≤ nodeFlow fd a) :=
    (sortNodesChord_sorted enum' fd').imp
      (fun hab => by rw [hflow, hflow]; exact hab)
  have hmem : ∀ x ∈ sortNodesChord enum fd, x ∈ nodeSet fd := fun x hx =>
    ((sortNodesChord_perm enum fd).trans h1).mem_iff.mp hx
  refine sortedPermEq ?_ hperm (sortNodesChord_sorted enum fd) hs₂
  intro a ha b hb hab hba
  by_contra hne
  exact hd.forall (fun x y hxy => hxy.symm) (hmem a ha) (hmem b hb) hne
    (le_antisymm hba hab)

/-- `nodeSizesRaw` only depends on the flow data through `matVal`. -/
theorem nodeSizesRaw_congr {fd fd' : List FlowItem}
    (h : matVal fd = matVal fd') (nodes : List Str) :
    nodeSizesRaw nodes fd = nodeSizesRaw nodes fd' := by
  unfold nodeSizesRaw
  rw [h]

/-- `chordWidths` only depends on the flow data through `matVal` and
`maxValue`. -/
theorem chordWidths_congr {fd fd' : List FlowItem}
    (hm : matVal fd = matVal fd') (hx : maxValue fd = maxValue fd')
    (nodes : List Str) : chordWidths nodes fd = chordWidths nodes fd' := by
  unfold chordWidths
  rw [hm, hx]

/-- With no ties and unique `(source, target)` pairs, the whole chord
layout is a function of the multiset of flow edges alone. -/
theorem chordLayout_unique {fd fd' : List FlowItem} (hp : fd.Perm fd')
    (hd : DistinctFlows fd) (hu : UniquePairs fd) {enum enum' : List Str}
    (h1 : validEnum enum fd) (h2 : validEnum enum' fd') :
    chordLayout enum fd = chordLayout enum' fd' := by
  have hmfun : matVal fd = matVal fd' :=
    funext fun s => funext fun t => matVal_perm hu hp s t
  have hmax : maxValue fd = maxValue fd' := by
    unfold maxValue
    rw [maximum_perm (hp.map (fun it => it.value))]
  have hsort : sortNodesChord enum fd = sortNodesChord enum' fd' :=
    sortNodesChord_unique hp hd h1 h2
  simp only [chordLayout]
  rw [hsort, nodeSizesRaw_congr hmfun, chordWidths_congr hmfun hmax, hmfun]

/-- The lexical state-diagram node order is sorted and a permutation of
the node set. -/
theorem stateNodes_sorted_perm (fd : List FlowItem) :
    (stateNodes fd).Pairwise (fun a b => lexLe a b = true)
      ∧ (stateNodes fd).Perm (nodeSet fd) :=
  ⟨@List.sorted_insertionSort _ (fun a b => lexLe a b = true) _
      ⟨lexLe_total⟩ ⟨fun _ _ _ => lexLe_trans⟩ (nodeSet fd),
    List.perm_insertionSort _ (nodeSet fd)⟩

/-- Sorting any iteration order of the node set lexically gives the same
list: the state-diagram node order is iteration-order independent. -/
theorem stateNodes_enum_irrelevant {fd : List FlowItem} {enum : List Str}
    (h : validEnum enum fd) :
    List.insertionSort (fun a b => lexLe a b = true) enum = stateNodes fd := by
  refine sortedPermEq (fun a _ b _ hab hba => lexLe_antisymm hab hba)
    ?_ ?_ (stateNodes_sorted_perm fd).1
  · exact (List.perm_insertionSort _ enum).trans
      (h.trans (stateNodes_sorted_perm fd).2.symm)
  · exact @List.sorted_insertionSort _ (fun a b => lexLe a b = true) _
      ⟨lexLe_total⟩ ⟨fun _ _ _ => lexLe_trans⟩ enum

/-- Filtering a duplicate-free list for one element yields that element,
or nothing. -/
theorem nodup_filter_eq {α : Type} [DecidableEq α] :
    ∀ {l : List α}, l.Nodup → ∀ a : α,
      l.filter (fun x => x = a) = if a ∈ l then [a] else []
  | [], _, a => by simp
  | b :: l, h, a => by
    have ih := nodup_filter_eq (List.nodup_cons.mp h).2 a
    by_cases hba : b = a
    · subst hba
      have : b ∉ l := (List.nodup_cons.mp h).1
      rw [List.filter_cons_of_pos (by simp), ih, if_neg this]
      simp
    · rw [List.filter_cons_of_neg (by simp [hba]), ih]
      by_cases ha : a ∈ l
      · rw [if_pos ha, if_pos (List.mem_cons_of_mem b ha)]
      · rw [if_neg ha, if_neg ?_]
        intro hmem
        rcases List.mem_cons.mp hmem with h' | h'
        · exact hba h'.symm
        · exact ha h'

/-- The filtered result of `get_card_flow_data` for one pair, fully
characterised: one edge carrying the event count when that count is
positive, nothing otherwise. -/
theorem gcfd_group (rows : List PathRow) (startD endD : Option Str)
    (f t : Str) :
    ((get_card_flow_data rows startD endD).filter
      (fun it => it.source = f ∧ it.target = t)).map (fun it => it.value)
    = if 0 < flowWeight rows startD endD f t
      then [(flowWeight rows startD endD f t : ℤ)] else [] := by
  set pairs :=
    ((rows.filter (fun r => passFilter r startD endD)).map
      (fun r => (r.from_list, r.to_list))).dedup with hpairs
  set mk : Str × Str → FlowItem :=
    fun p => { source := p.1, target := p.2,
               value := (flowWeight rows startD endD p.1 p.2 : ℤ) } with hmk
  have hperm :
      ((get_card_flow_data rows startD endD).filter
        (fun it => it.source = f ∧ it.target = t)).Perm
      ((pairs.map mk).filter (fun it => it.source = f ∧ it.target = t)) := by
    unfold get_card_flow_data
    exact List.Perm.filter _ (List.perm_insertionSort _ _)
  have hstep : (pairs.map mk).filter (fun it => it.source = f ∧ it.target = t)
      = (pairs.filter (fun p => p = (f, t))).map mk := by
    rw [List.filter_map]
    have hcong : ∀ p ∈ pairs,
        ((fun it => decide (it.source = f ∧ it.target = t)) ∘ mk) p
          = decide (p = (f, t)) := by
      intro p _
      simp [hmk, Prod.ext_iff]
    rw [List.filter_congr hcong]
  have hmem_iff : ((f, t) ∈ pairs) ↔ 0 < flowWeight rows startD endD f t := by
    rw [hpairs, List.mem_dedup, List.mem_map]
    unfold flowWeight
    rw [← List.countP_eq_length_filter, List.countP_pos_iff]
    constructor
    · rintro ⟨r, hr, hpair⟩
      rw [Prod.ext_iff] at hpair
      obtain ⟨h1, h2⟩ := hpair
      simp only [] at h1 h2
      exact ⟨r, hr, by simp [h1, h2]⟩
    · rintro ⟨r, hr, hcond⟩
      simp only [decide_eq_true_eq] at hcond
      exact ⟨r, hr, by rw [Prod.ext_iff]; exact ⟨hcond.1, hcond.2⟩⟩
  by_cases hw : 0 < flowWeight rows startD endD f t
  · rw [if_pos hw]
    have hin : (f, t) ∈ pairs := hmem_iff.mpr hw
    have h2 : (pairs.map mk).filter (fun it => it.source = f ∧ it.target = t)
        = [mk (f, t)] := by
      rw [hstep, nodup_filter_eq (List.nodup_dedup _) ((f, t)), if_pos hin]
      rfl
    rw [h2] at hperm
    have hfe := (permShortEq hperm.symm (by simp)).symm
    rw [hfe, hmk]
    rfl
  · rw [if_neg hw]
    have hnin : (f, t) ∉ pairs := fun h => hw (hmem_iff.mp h)
    have h2 : (pairs.map mk).filter (fun it => it.source = f ∧ it.target = t)
        = [] := by
      rw [hstep, nodup_filter_eq (List.nodup_dedup _) ((f, t)), if_neg hnin]
      rfl
    rw [h2] at hperm
    rw [hperm.eq_nil]
    rfl

/-- A sequence of events sorted by `evOrd` has its parsable timestamps
sorted by `dtLe`. -/
theorem evOrd_pairwise_filterMap {l : List MoveEvent}
    (hsorted : l.Pairwise (fun a b => evOrd a b = true)) :
    (l.filterMap (fun e => parse_timestamp e.time)).Pairwise
      (fun a b => dtLe a b = true) := by
  rw [List.pairwise_filterMap]
  refine hsorted.imp ?_
  intro a b hord x hx y hy
  unfold evOrd at hord
  rw [Option.mem_def] at hx hy
  rw [hx, hy] at hord
  exact hord

/-- A self-loop in the state diagram always produces the degenerate
(NaN-coordinate) segment. -/
theorem stateEdgeSegment_self_none (n i : ℕ) :
    stateEdgeSegment n i i = none := by
  unfold stateEdgeSegment
  simp

/-- A self-loop chord is never a single point: the curve's value at
`t = 0` differs from its value at `t = 1/2`, whatever circle position the
node occupies. -/
theorem chordCurve_self_ne (n k : ℕ) :
    chordCurve n k k 0 ≠ chordCurve n k k (1 / 2) := by
  intro h
  simp only [chordCurve, chordNodePos] at h
  rw [Prod.ext_iff] at h
  obtain ⟨h1, h2⟩ := h
  simp only at h1 h2
  have hc : Real.cos (nodeTheta n k) = 0 := by nlinarith [h1]
  have hs : Real.sin (nodeTheta n k) = 0 := by nlinarith [h2]
  have := Real.sin_sq_add_cos_sq (nodeTheta n k)
  rw [hc, hs] at this
  norm_num at this

/-! ## Claim theorems -/

/-- C1, counterexample.  The claim says the layout output is a function of
the edge multiset alone, with no dependence on any set's iteration order.
It is false: for the single edge `{A,B,1}` the two nodes tie on total
flow, both `[A, B]` and `[B, A]` are legal iteration orders of
`set(sources + targets)`, and the two orders give different layouts (the
node ordering — hence positions and colors — differs). -/
theorem chord_layout_depends_on_set_order :
    validEnum [['A'], ['B']] fdTie ∧ validEnum [['B'], ['A']] fdTie ∧
      chordLayout [['A'], ['B']] fdTie ≠ chordLayout [['B'], ['A']] fdTie := by
  refine ⟨by unfold validEnum; decide, by unfold validEnum; decide, ?_⟩
  intro h
  have hnodes := congrArg ChordLayout.nodes h
  simp only [chordLayout] at hnodes
  revert hnodes
  decide

/-- C1, amended: the chord layout is a function of the edge multiset
together with the node set's iteration order; when all nodes have pairwise
distinct total flow and the `(source, target)` pairs are unique, it is a
function of the edge multiset alone — independent of the order of the
input edges and of the set's iteration order. -/
theorem chord_layout_deterministic_of_distinct_flows
    {fd fd' : List FlowItem} {enum enum' : List Str}
    (hp : fd.Perm fd') (hd : DistinctFlows fd) (hu : UniquePairs fd)
    (h1 : validEnum enum fd) (h2 : validEnum enum' fd') :
    chordLayout enum fd = chordLayout enum' fd' :=
  chordLayout_unique hp hd hu h1 h2

/-- C1, witness: the amended determinism theorem applied to the worked
example and a permutation of it. -/
theorem chord_layout_deterministic_witness :
    fdExample.Perm fdExamplePerm ∧ DistinctFlows fdExample
      ∧ UniquePairs fdExample
      ∧ chordLayout (nodeSet fdExample) fdExample
        = chordLayout (nodeSet fdExamplePerm) fdExamplePerm :=
  ⟨by decide, by unfold DistinctFlows; decide, by unfold UniquePairs; decide,
    chord_layout_deterministic_of_distinct_flows (by decide)
      (by unfold DistinctFlows; decide) (by unfold UniquePairs; decide)
      (List.Perm.refl _) (List.Perm.refl _)⟩

/-- C2, counterexample.  The claim says the layout's node sequence is
sorted descending by total flow with lexical tie-break.  The state-diagram
layout refutes it: for edges `[{A,B,10},{B,C,5}]` it orders the nodes
`[A, B, C]` although `A`'s total flow (10) is smaller than `B`'s (15) —
the order is not descending by total flow. -/
theorem state_nodes_not_flow_sorted :
    stateNodes fdState = [['A'], ['B'], ['C']]
      ∧ nodeFlow fdState ['A'] < nodeFlow fdState ['B']
      ∧ ¬ (stateNodes fdState).Pairwise
          (fun a b => nodeFlow fdState b ≤ nodeFlow fdState a) := by
  refine ⟨by decide, by decide, ?_⟩
  intro h
  have hs : stateNodes fdState = [['A'], ['B'], ['C']] := by decide
  rw [hs] at h
  have h15 : nodeFlow fdState ['B'] ≤ nodeFlow fdState ['A'] :=
    (List.pairwise_cons.mp h).1 ['B'] (by decide)
  revert h15
  decide

/-- C2, amended: the chord diagram sorts nodes descending by total flow
with ties resolved by the node set's iteration order (stable sort, not
lexical); the state diagram sorts nodes ascending lexically, ignoring
total flow.  Both orders enumerate exactly the states appearing in some
edge. -/
theorem node_order_chord_flow_state_lexical
    (fd : List FlowItem) (enum : List Str) (h : validEnum enum fd) :
    ((sortNodesChord enum fd).Pairwise
        (fun a b => nodeFlow fd b ≤ nodeFlow fd a)
      ∧ (sortNodesChord enum fd).Perm (nodeSet fd))
    ∧ ((stateNodes fd).Pairwise (fun a b => lexLe a b = true)
      ∧ (stateNodes fd).Perm (nodeSet fd)) :=
  ⟨⟨sortNodesChord_sorted enum fd, (sortNodesChord_perm enum fd).trans h⟩,
    stateNodes_sorted_perm fd⟩

/-- C2, witness: the amended ordering theorem applied to a concrete
input. -/
theorem node_order_witness :
    validEnum (nodeSet fdState) fdState
      ∧ (((sortNodesChord (nodeSet fdState) fdState).Pairwise
            (fun a b => nodeFlow fdState b ≤ nodeFlow fdState a)
          ∧ (sortNodesChord (nodeSet fdState) fdState).Perm (nodeSet fdState))
        ∧ ((stateNodes fdState).Pairwise (fun a b => lexLe a b = true)
          ∧ (stateNodes fdState).Perm (nodeSet fdState))) :=
  ⟨List.Perm.refl _,
    node_order_chord_flow_state_lexical fdState (nodeSet fdState)
      (List.Perm.refl _)⟩

/-- C3, counterexample.  The claim says the example input
`[{A,B,10},{B,C,5},{A,A,2}]` yields total flow 22 for `A` and node order
`A, B, C`.  The code gives `A` total flow 14 (= 12 outgoing + 2 incoming)
and orders the nodes `B, A, C`, because `B`'s total flow 15 exceeds
`A`'s 14. -/
theorem example_total_flow_not_22 :
    nodeFlow fdExample ['A'] ≠ 22
      ∧ sortNodesChord (nodeSet fdExample) fdExample ≠ [['A'], ['B'], ['C']] := by
  exact ⟨by decide, by decide⟩

/-- C3, amended: for the example edges `[{A,B,10},{B,C,5},{A,A,2}]` the
layout has exactly the 3 nodes `B, A, C` in that order (for every
iteration order of the node set), with total flows A = 14, B = 15, C = 5;
node `B` — not `A` — receives the largest node size (70) and hue 0. -/
theorem example_layout_B_first {enum : List Str}
    (h : validEnum enum fdExample) :
    (chordLayout enum fdExample).nodes = [['B'], ['A'], ['C']]
    ∧ nodeFlow fdExample ['A'] = 14
    ∧ nodeFlow fdExample ['B'] = 15
    ∧ nodeFlow fdExample ['C'] = 5
    ∧ (chordLayout enum fdExample).sizes.head? = some 70
    ∧ (∀ q ∈ (chordLayout enum fdExample).sizes, q ≤ 70)
    ∧ (chordLayout enum fdExample).nodeHues.head? = some 0 := by
  have hd : DistinctFlows fdExample := by unfold DistinctFlows; decide
  have hn : sortNodesChord enum fdExample = [['B'], ['A'], ['C']] := by
    rw [sortNodesChord_unique (List.Perm.refl fdExample) hd h
      (List.Perm.refl (nodeSet fdExample))]
    decide
  have hraw : nodeSizesRaw [['B'], ['A'], ['C']] fdExample = [15, 14, 5] := by
    decide
  have hm : maxSize [15, 14, 5] = 15 := by decide
  have hsz : normalizedSizes (nodeSizesRaw [['B'], ['A'], ['C']] fdExample)
      = [70, 30 + (14 / 15) * 40, 30 + (5 / 15) * 40] := by
    rw [hraw]
    unfold normalizedSizes
    rw [hm]
    norm_num
  refine ⟨?_, by decide, by decide, by decide, ?_, ?_, ?_⟩
  · simp only [chordLayout, hn]
  · simp only [chordLayout, hn, hsz]
    norm_num
  · simp only [chordLayout, hn, hsz]
    intro q hq
    rcases List.mem_cons.mp hq with h' | h'
    · rw [h']
    rcases List.mem_cons.mp h' with h'' | h''
    · rw [h'']; norm_num
    rcases List.mem_cons.mp h'' with h₃ | h₃
    · rw [h₃]; norm_num
    · simp at h₃
  · simp only [chordLayout, hn]
    have h3 : ([['B'], ['A'], ['C']] : List Str).length = 3 := by decide
    rw [h3]
    have hh : hues 3 = [0, 1 / 3, 2 / 3] := by
      unfold hues
      have hr : List.range 3 = [0, 1, 2] := by decide
      rw [hr]
      norm_num
    rw [hh]
    rfl

/-- C3, witness: the amended example-layout theorem applied with the
canonical iteration order. -/
theorem example_layout_B_first_witness :
    validEnum (nodeSet fdExample) fdExample
      ∧ (chordLayout (nodeSet fdExample) fdExample).nodes
          = [['B'], ['A'], ['C']] :=
  ⟨List.Perm.refl _, (example_layout_B_first (List.Perm.refl _)).1⟩

/-- C4: for every `(from_state, to_state)` pair, the emitted edge's weight
is exactly the number of qualifying move events (rows) with that pair —
counting events, not distinct cards — and no zero-weight edge is ever
emitted; concretely, one card making the same transition twice yields
weight 2. -/
theorem flow_weight_counts_events :
    (∀ (rows : List PathRow) (startD endD : Option Str) (f t : Str),
      ((get_card_flow_data rows startD endD).filter
        (fun it => it.source = f ∧ it.target = t)).map (fun it => it.value)
      = if 0 < flowWeight rows startD endD f t
        then [(flowWeight rows startD endD f t : ℤ)] else [])
    ∧ get_card_flow_data [rowAB1, rowAB2] none none
        = [⟨['A'], ['B'], 2⟩] :=
  ⟨gcfd_group, by decide⟩

/-- C5: the order used by journey reconstruction is calendar order — year
(2000 + YY) first, then month, day, hour, minute — and on the three spec
timestamps it sorts `01:20:23 23:59` before `01:15:24 09:00` before
`02:01:24 08:00`, which differs from lexical order on the raw strings
(lexically `01:15:24 09:00` precedes `01:20:23 23:59`). -/
theorem journey_order_is_calendar_order :
    (∀ a b : DateTime, dtLt a b = true ↔
      (a.year < b.year ∨ (a.year = b.year ∧ (a.month < b.month
        ∨ (a.month = b.month ∧ (a.day < b.day ∨ (a.day = b.day
        ∧ (a.hour < b.hour ∨ (a.hour = b.hour
        ∧ a.minute < b.minute)))))))))
    ∧ parse_timestamp evJan20of23.time = some ⟨2023, 1, 20, 23, 59⟩
    ∧ parse_timestamp evJan15.time = some ⟨2024, 1, 15, 9, 0⟩
    ∧ parse_timestamp evFeb01.time = some ⟨2024, 2, 1, 8, 0⟩
    ∧ dtLt ⟨2023, 1, 20, 23, 59⟩ ⟨2024, 1, 15, 9, 0⟩ = true
    ∧ dtLt ⟨2024, 1, 15, 9, 0⟩ ⟨2024, 2, 1, 8, 0⟩ = true
    ∧ stableSortModel [evJan15, evFeb01, evJan20of23]
        = [evJan20of23, evJan15, evFeb01]
    ∧ lexLt evJan15.time evJan20of23.time = true := by
  refine ⟨?_, by decide, by decide, by decide, by decide, by decide,
    by decide, by decide⟩
  intro a b
  unfold dtLt dtLe
  split_ifs <;> simp_all <;> omega

/-- C6: timestamp parsing is a total function to an optional value — on
wrong token count, non-numeric fields or out-of-range calendar fields it
returns `none` instead of raising — and journey reconstruction skips
exactly the events whose timestamp is invalid: the timeline has one
interval per parsable event, whatever order the sort produced. -/
theorem parse_total_and_invalid_excluded :
    (parse_timestamp [] = none
      ∧ parse_timestamp "garbage".toList = none
      ∧ parse_timestamp "1:2".toList = none
      ∧ parse_timestamp "13:40:24 99:99".toList = none
      ∧ parse_timestamp "01:15:24 09:00".toList = some ⟨2024, 1, 15, 9, 0⟩)
    ∧ ∀ (f : List MoveEvent → List MoveEvent) (l : List MoveEvent),
        IsSortImpl f →
        (buildTimeline (f l) 0).length
            = l.countP (fun e => (parse_timestamp e.time).isSome)
          ∧ (buildTimeline (f l) 0).map (fun I => I.start)
              = (f l).filterMap (fun e => parse_timestamp e.time) := by
  refine ⟨⟨by decide, by decide, by decide, by decide, by decide⟩, ?_⟩
  intro f l hf
  refine ⟨?_, buildTimeline_starts (f l) 0⟩
  rw [buildTimeline_length]
  exact (hf l).1.countP_eq _

/-- C6, witness: the exclusion theorem applied to the stable sort model
and a concrete event list with one invalid timestamp. -/
theorem parse_total_and_invalid_excluded_witness :
    IsSortImpl stableSortModel
      ∧ (buildTimeline (stableSortModel [evJan15, evBad]) 0).length
          = [evJan15, evBad].countP
              (fun e => (parse_timestamp e.time).isSome) :=
  ⟨stableSortModel_isSortImpl,
    (parse_total_and_invalid_excluded.2 stableSortModel [evJan15, evBad]
      stableSortModel_isSortImpl).1⟩

/-- C7: for a card whose N events all parse, with pairwise-distinct
timestamps, the reconstruction yields exactly N intervals, consecutive
intervals chain (`stop = next start`, no gap, no overlap), starts are
strictly increasing, and — when there is at least one event — all
intervals are closed except the final synthetic one-hour open tail. -/
theorem journey_partition_invariant
    (f : List MoveEvent → List MoveEvent) (events : List MoveEvent)
    (hf : IsSortImpl f)
    (hvalid : ∀ e ∈ events, (parse_timestamp e.time).isSome = true)
    (hdist : (events.filterMap
      (fun e => parse_timestamp e.time)).Pairwise (· ≠ ·)) :
    (buildTimeline (f events) 0).length = events.length
    ∧ (buildTimeline (f events) 0).Chain' (fun a b => a.stop = b.start)
    ∧ ((buildTimeline (f events) 0).map (fun I => I.start)).Pairwise
        (fun a b => dtLt a b = true)
    ∧ (events ≠ [] →
        ∃ pre lastI, buildTimeline (f events) 0 = pre ++ [lastI]
          ∧ lastI.is_current = true ∧ lastI.stop = addHour lastI.start
          ∧ ∀ I ∈ pre, I.is_current = false) := by
  have hperm := (hf events).1
  have hvalid' : ∀ e ∈ f events, (parse_timestamp e.time).isSome = true :=
    fun e he => hvalid e (hperm.mem_iff.mp he)
  refine ⟨?_, buildTimeline_chain (f events) 0 hvalid', ?_, ?_⟩
  · rw [buildTimeline_length, hperm.countP_eq]
    rw [List.countP_eq_length.mpr ?_]
    intro e he
    exact hvalid e he
  · rw [buildTimeline_starts]
    refine filterMap_parse_strict (hf events).2 ?_
    exact (List.Perm.pairwise_iff (fun h => Ne.symm h)
      (hperm.filterMap (fun e => parse_timestamp e.time))).mpr hdist
  · intro hne
    refine buildTimeline_flags (f events) 0 hvalid' ?_
    intro hfe
    rw [hfe] at hperm
    exact hne hperm.symm.eq_nil

/-- C7, witness: the partition invariant applied to three concrete events
with distinct valid timestamps. -/
theorem journey_partition_invariant_witness :
    IsSortImpl stableSortModel
      ∧ (∀ e ∈ [evJan15, evFeb01, evJan20of23],
          (parse_timestamp e.time).isSome = true)
      ∧ ([evJan15, evFeb01, evJan20of23].filterMap
          (fun e => parse_timestamp e.time)).Pairwise (· ≠ ·)
      ∧ (buildTimeline
          (stableSortModel [evJan15, evFeb01, evJan20of23]) 0).length = 3 :=
  ⟨stableSortModel_isSortImpl, by decide, by decide,
    ((journey_partition_invariant stableSortModel
        [evJan15, evFeb01, evJan20of23] stableSortModel_isSortImpl
        (by decide) (by decide)).1).trans (by decide)⟩

/-- C8, counterexample.  The claim says events with equal timestamps keep
their original insertion order (stable sort).  The code sorts with
pandas' default quicksort, which only guarantees a timestamp-ordered
permutation; the tie-reversing implementation below satisfies everything
the sort call guarantees, yet swaps two distinct events that carry the
same valid timestamp. -/
theorem sort_tie_order_not_guaranteed :
    IsSortImpl tieReversingSortModel
    ∧ parse_timestamp evTieA.time = parse_timestamp evTieB.time
    ∧ (parse_timestamp evTieA.time).isSome = true
    ∧ evTieA ≠ evTieB
    ∧ tieReversingSortModel [evTieA, evTieB] = [evTieB, evTieA] :=
  ⟨tieReversingSortModel_isSortImpl, by decide, by decide, by decide,
    by decide⟩

/-- C8, amended: the code sorts events by parsed timestamp ascending, but
the relative order of events with equal timestamps is implementation-
defined (pandas' default quicksort promises no stability); what is
uniquely determined is the sorted sequence of parsed timestamps, which is
identical for every implementation meeting the sort call's contract. -/
theorem sorted_timestamps_unique
    (f g : List MoveEvent → List MoveEvent) (l : List MoveEvent)
    (hf : IsSortImpl f) (hg : IsSortImpl g) :
    (f l).filterMap (fun e => parse_timestamp e.time)
      = (g l).filterMap (fun e => parse_timestamp e.time)
    ∧ ((f l).filterMap (fun e => parse_timestamp e.time)).Pairwise
        (fun a b => dtLe a b = true) := by
  have hsf := evOrd_pairwise_filterMap (hf l).2
  have hsg := evOrd_pairwise_filterMap (hg l).2
  have hperm : ((f l).filterMap (fun e => parse_timestamp e.time)).Perm
      ((g l).filterMap (fun e => parse_timestamp e.time)) :=
    ((hf l).1.trans (hg l).1.symm).filterMap _
  exact ⟨sortedPermEq (fun a _ b _ => dtLe_antisymm) hperm hsf hsg, hsf⟩

/-- C8, witness: the stable and the tie-reversing sort models produce the
same timestamp sequence on the concrete tied pair. -/
theorem sorted_timestamps_unique_witness :
    IsSortImpl stableSortModel ∧ IsSortImpl tieReversingSortModel
      ∧ (stableSortModel [evTieA, evTieB]).filterMap
          (fun e => parse_timestamp e.time)
        = (tieReversingSortModel [evTieA, evTieB]).filterMap
            (fun e => parse_timestamp e.time) :=
  ⟨stableSortModel_isSortImpl, tieReversingSortModel_isSortImpl,
    (sorted_timestamps_unique stableSortModel tieReversingSortModel
      [evTieA, evTieB] stableSortModel_isSortImpl
      tieReversingSortModel_isSortImpl).1⟩

/-- C9, counterexample.  The claim says every self-loop edge yields a
curve of nonzero length in the layout, never a degenerate one.  The state
diagram refutes it: for the single self-loop edge `{A,A,1}` (weight > 0)
the node set is `[A]` and the drawn edge divides by
`dist = √(dx² + dy²) = 0`, producing NaN endpoint coordinates — the
degenerate outcome modelled as `none`, not a nonzero-length curve. -/
theorem state_self_loop_degenerate :
    stateNodes fdLoop = [['A']]
    ∧ fdLoop = [⟨['A'], ['A'], 1⟩]
    ∧ stateEdgeSegment (stateNodes fdLoop).length 0 0 = none := by
  refine ⟨by decide, rfl, ?_⟩
  exact stateEdgeSegment_self_none _ 0

/-- C9, amended: in the chord diagram every self-loop produces a curve of
nonzero length (its value at `t = 0` differs from its value at
`t = 1/2`) regardless of the node's circle position; in the state diagram
a self-loop instead produces the degenerate NaN segment. -/
theorem self_loop_curves (n k : ℕ) (hk : k < n) :
    chordCurve n k k 0 ≠ chordCurve n k k (1 / 2)
    ∧ stateEdgeSegment n k k = none :=
  ⟨chordCurve_self_ne n k, stateEdgeSegment_self_none n k⟩

/-- C9, witness: the self-loop geometry theorem at one node on the
circle. -/
theorem self_loop_curves_witness :
    0 < 1 ∧ chordCurve 1 0 0 0 ≠ chordCurve 1 0 0 (1 / 2) :=
  ⟨Nat.zero_lt_one, (self_loop_curves 1 0 Nat.zero_lt_one).1⟩

/-- C10: for `h, s, v ∈ [0, 1]` the HSV→RGB conversion always returns a
triple (it never falls off the end of the branch chain, including at
`s = 0` and `h = 1`), and every component of the triple lies in
`[0, 1]`. -/
theorem hsv_to_rgb_total_in_range (h s v : ℚ)
    (hh0 : 0 ≤ h) (hh1 : h ≤ 1) (hs0 : 0 ≤ s) (hs1 : s ≤ 1)
    (hv0 : 0 ≤ v) (hv1 : v ≤ 1) :
    ∃ c : ℚ × ℚ × ℚ, hsv_to_rgb h s v = some c
      ∧ 0 ≤ c.1 ∧ c.1 ≤ 1 ∧ 0 ≤ c.2.1 ∧ c.2.1 ≤ 1
      ∧ 0 ≤ c.2.2 ∧ c.2.2 ≤ 1 := by
  by_cases hs : s = 0
  · refine ⟨(v, v, v), ?_, hv0, hv1, hv0, hv1, hv0, hv1⟩
    unfold hsv_to_rgb
    rw [if_pos hs]
  · have h6 : (0 : ℚ) ≤ h * 6 := by positivity
    have htr : ratTrunc (h * 6) = ⌊h * 6⌋ := by
      unfold ratTrunc
      rw [if_pos h6]
    have hfract : h * 6 - (⌊h * 6⌋ : ℚ) = Int.fract (h * 6) := rfl
    have hf0 : 0 ≤ h * 6 - (⌊h * 6⌋ : ℚ) := by
      rw [hfract]; exact Int.fract_nonneg _
    have hf1 : h * 6 - (⌊h * 6⌋ : ℚ) < 1 := by
      rw [hfract]; exact Int.fract_lt_one _
    set f : ℚ := h * 6 - (⌊h * 6⌋ : ℚ) with hfdef
    have hp0 : 0 ≤ v * (1 - s) := by nlinarith
    have hp1 : v * (1 - s) ≤ 1 := by nlinarith
    have hq0 : 0 ≤ v * (1 - s * f) := by nlinarith
    have hq1 : v * (1 - s * f) ≤ 1 := by nlinarith
    have ht0 : 0 ≤ v * (1 - s * (1 - f)) := by nlinarith
    have ht1 : v * (1 - s * (1 - f)) ≤ 1 := by nlinarith
    have hi0 : 0 ≤ ⌊h * 6⌋ % 6 := Int.emod_nonneg _ (by norm_num)
    have hi6 : ⌊h * 6⌋ % 6 < 6 := Int.emod_lt_of_pos _ (by norm_num)
    unfold hsv_to_rgb
    rw [if_neg hs, htr]
    dsimp only
    rw [← hfdef]
    set j : ℤ := ⌊h * 6⌋ % 6 with hjdef
    interval_cases j
    · exact ⟨(v, v * (1 - s * (1 - f)), v * (1 - s)), by norm_num,
        hv0, hv1, ht0, ht1, hp0, hp1⟩
    · exact ⟨(v * (1 - s * f), v, v * (1 - s)), by norm_num,
        hq0, hq1, hv0, hv1, hp0, hp1⟩
    · exact ⟨(v * (1 - s), v, v * (1 - s * (1 - f))), by norm_num,
        hp0, hp1, hv0, hv1, ht0, ht1⟩
    · exact ⟨(v * (1 - s), v * (1 - s * f), v), by norm_num,
        hp0, hp1, hq0, hq1, hv0, hv1⟩
    · exact ⟨(v * (1 - s * (1 - f)), v * (1 - s), v), by norm_num,
        ht0, ht1, hp0, hp1, hv0, hv1⟩
    · exact ⟨(v, v * (1 - s), v * (1 - s * f)), by norm_num,
        hv0, hv1, hp0, hp1, hq0, hq1⟩

/-- C10, witness: the conversion evaluated at the boundary point
`h = 1, s = 1, v = 1`. -/
theorem hsv_to_rgb_total_in_range_witness :
    (0 : ℚ) ≤ 1
    ∧ ∃ c : ℚ × ℚ × ℚ, hsv_to_rgb 1 1 1 = some c
      ∧ 0 ≤ c.1 ∧ c.1 ≤ 1 ∧ 0 ≤ c.2.1 ∧ c.2.1 ≤ 1
      ∧ 0 ≤ c.2.2 ∧ c.2.2 ≤ 1 :=
  ⟨zero_le_one,
    hsv_to_rgb_total_in_range 1 1 1 zero_le_one le_rfl zero_le_one le_rfl
      zero_le_one le_rfl⟩

end TrelloArchiver
